import Mathlib

/-!
Shallow embedding of `src/STLTopologicalSorting/stl_topological_sorter.hpp`
(namespace `snicholls`) and verification of its specification.

Keys: the C++ code is templated over a totally ordered `Nat` (instantiated at
`std::string` and `int` in `main.cpp`); we embed keys as `Nat`, which carries
the same total order structure used by `std::map`.  The string keys of the
examples are mapped order-preservingly: A=0, B=1, C=2, D=3, E=4, F=5, X=21,
Y=22, Z=25.

`std::map<Nat, V>` is embedded as an association list sorted strictly by key.
`std::stack<Nat>` is embedded as a `List Nat` whose head is the top, so the
list read front to back is exactly the pop (consumption) order.

The recursive `sort_util` is embedded as a fueled function `dfsSeq` processing
a sequence of candidate vertices: `sort_util(v)` corresponds to processing the
one-element candidate list `[v]`; the `if (!visited[i])` guard at each C++
call site is the visited test performed on each candidate.  Fuel decreases at
every processed candidate; sufficiency of the fuel chosen by
`topologicalSort` is proved (claim C6), so the fueled function is total on the
fuel actually supplied.

The auto-vivification performed by `adj[v]` inside `sort_util` (the C++
comment: "if a key does not exist in the adjacency map - we create it") is
modelled exactly by `vivify`.  The outer range-for of `topological_sort`
iterates a `std::map` while `sort_util` inserts into it; `std::map` iterators
survive insertion, and advancing the iterator past the node of key `k` yields
the smallest key greater than `k` in the *current* map, which is what
`nextKeyAfter` computes.
-/

/-- `std::map<Nat, std::vector<Nat>>`: sorted association list. -/
abbrev AdjMap := List (Nat × List Nat)

def keysOf (adj : AdjMap) : List Nat := adj.map Prod.fst

/-- Well-formedness of the `std::map` embedding: keys strictly sorted. -/
def WFAdj (adj : AdjMap) : Prop := (keysOf adj).Sorted (· < ·)

instance (adj : AdjMap) : Decidable (WFAdj adj) :=
  inferInstanceAs (Decidable ((keysOf adj).Sorted (· < ·)))

/-- Reading `adj[v]` without inserting: the successor list, empty if absent. -/
def lookupAdj : AdjMap → Nat → List Nat
  | [], _ => []
  | (k, ws) :: rest, v => if v = k then ws else lookupAdj rest v

/-- `precede(v, w)`, i.e. `adj[v].push_back(w)`: creates `v`'s entry if absent
and appends `w` to its successor vector. -/
def precede : AdjMap → Nat → Nat → AdjMap
  | [], v, w => [(v, [w])]
  | (k, ws) :: rest, v, w =>
    if v < k then (v, [w]) :: (k, ws) :: rest
    else if v = k then (k, ws ++ [w]) :: rest
    else (k, ws) :: precede rest v w

/-- The auto-vivification `adj[v]` performs on a missing key: insert `(v, [])`.
If `v` is already present the map is unchanged. -/
def vivify : AdjMap → Nat → AdjMap
  | [], v => [(v, [])]
  | (k, ws) :: rest, v =>
    if v < k then (v, []) :: (k, ws) :: rest
    else if v = k then (k, ws) :: rest
    else (k, ws) :: vivify rest v

/-- The vertex set of the graph: every key appearing as a left- or right-hand
side of a declared edge (deduplicated). -/
def vertsU (adj : AdjMap) : List Nat :=
  (adj.map Prod.fst ++ (adj.map Prod.snd).flatten).dedup

/-- The state threaded through the traversal: the (mutated) adjacency map, the
visited set (`std::map<Nat,bool>`, absent = false, embedded as the list of
keys marked true) and the output stack (head = top). -/
structure DfsState where
  adj : AdjMap
  visited : List Nat
  stack : List Nat
  deriving Repr, DecidableEq

/-- `sort_util`, fueled.  Processing candidate `v`: skip if visited (the
`if (!visited[i])` / `if (visited[key] == false)` guards of the C++ call
sites); otherwise mark visited, vivify `adj[v]`, recursively process the
successor list, then push `v` (post-order). -/
def dfsSeq : Nat → List Nat → DfsState → Option DfsState
  | _, [], st => some st
  | 0, _ :: _, _ => none
  | fuel + 1, v :: vs, st =>
    if v ∈ st.visited then dfsSeq fuel vs st
    else
      let st1 : DfsState := ⟨vivify st.adj v, v :: st.visited, st.stack⟩
      match dfsSeq fuel (lookupAdj st1.adj v) st1 with
      | none => none
      | some st2 => dfsSeq fuel vs ⟨st2.adj, st2.visited, v :: st2.stack⟩

/-- First key in `adj` strictly greater than `c` (advancing a `std::map`
iterator past the node with key `c`, in the current map). -/
def findNext : AdjMap → Nat → Option Nat
  | [], _ => none
  | (k, _) :: rest, c => if c < k then some k else findNext rest c

/-- The outer range-for iterator of `topological_sort`: `none` means the loop
has not started (begin()); `some c` means the node of key `c` was just
processed. -/
def nextKeyAfter (adj : AdjMap) : Option Nat → Option Nat
  | none =>
    match adj with
    | [] => none
    | (k, _) :: _ => some k
  | some c => findNext adj c

/-- The outer loop of `topological_sort`, fueled. -/
def sortLoop (fuelD : Nat) : Nat → Option Nat → DfsState → Option DfsState
  | 0, _, _ => none
  | fuelO + 1, cur, st =>
    match nextKeyAfter st.adj cur with
    | none => some st
    | some k =>
      if k ∈ st.visited then sortLoop fuelD fuelO (some k) st
      else
        match dfsSeq fuelD [k] st with
        | none => none
        | some st' => sortLoop fuelD fuelO (some k) st'

/-- Fuel for the outer loop: one unit per distinct vertex, plus one. -/
def oFuel (adj : AdjMap) : Nat := (vertsU adj).length + 1

/-- Fuel for `dfsSeq`: one unit per vertex plus one per successor-list entry,
plus one; proved sufficient below. -/
def dFuel (adj : AdjMap) : Nat :=
  ((vertsU adj).map (fun u => (lookupAdj adj u).length + 1)).sum + 1

def topologicalSortR (adj : AdjMap) : Option DfsState :=
  sortLoop (dFuel adj) (oFuel adj) none ⟨adj, [], []⟩

/-- `topological_sort()`: returns the adjacency map as left by the call
(auto-vivified entries included) and the stack, whose list order (head first)
is the pop/consumption order. -/
def topologicalSort (adj : AdjMap) : AdjMap × List Nat :=
  match topologicalSortR adj with
  | some st => (st.adj, st.stack)
  | none => (adj, [])

/-!
### Container adapters

`topological_sort_map` / `topological_sort_unordered_map`: the wrapped
container is an association list of `(key, value)` entries in the container's
native iteration order (sorted by key for `std::map`, implementation-defined
for `std::unordered_map`); keys are unique.  `container::at(key)` throws
`std::out_of_range` for a missing key, embedded as `none`.

`topological_sort_vector` / `topological_sort_array`: the wrapped container
is a `List Nat` in native order.
-/

/-- `std::map::at` / `std::unordered_map::at`: `none` models the thrown
`std::out_of_range`. -/
def mapAt : List (Nat × Nat) → Nat → Option Nat
  | [], _ => none
  | (k, t) :: rest, x => if x = k then some t else mapAt rest x

/-- Stack-consumption phase of the associative adapters' `sort`: for each
popped key, `at(key)` (throwing if absent), emit the pair, mark copied. -/
def assocStackPhase (c : List (Nat × Nat)) :
    List Nat → List Nat → Option (List (Nat × Nat) × List Nat)
  | [], copied => some ([], copied)
  | k :: rest, copied =>
    match mapAt c k with
    | none => none
    | some t =>
      match assocStackPhase c rest (k :: copied) with
      | none => none
      | some (res, copied') => some ((k, t) :: res, copied')

/-- Sweep phase of the associative adapters' `sort`: iterate the container in
native order, emitting entries whose key was not yet copied. -/
def assocSweep : List (Nat × Nat) → List Nat → List (Nat × Nat)
  | [], _ => []
  | (k, t) :: rest, copied =>
    if k ∈ copied then assocSweep rest copied
    else (k, t) :: assocSweep rest (k :: copied)

/-- `topological_sort_map::sort` / `topological_sort_unordered_map::sort`.
`none` models an escaping `std::out_of_range` from `container::at`. -/
def assocSort (adj : AdjMap) (c : List (Nat × Nat)) : Option (List (Nat × Nat)) :=
  let s := (topologicalSort adj).2
  match assocStackPhase c s [] with
  | none => none
  | some pr => some (pr.1 ++ assocSweep c pr.2)

/-- Stack-consumption phase of `topological_sort_vector::sort`: for each
popped key, count its occurrences in the container, emit that many copies
(none if absent), mark copied. -/
def vecStackPhase (c : List Nat) : List Nat → List Nat → List Nat × List Nat
  | [], copied => ([], copied)
  | k :: rest, copied =>
    let pr := vecStackPhase c rest (k :: copied)
    (List.replicate (c.count k) k ++ pr.1, pr.2)

/-- Sweep phase of `topological_sort_vector::sort`: iterate the container in
native order; at the first not-yet-copied occurrence of a key, emit all of its
occurrences and mark it copied. -/
def vecSweep (c : List Nat) : List Nat → List Nat → List Nat
  | [], _ => []
  | k :: rest, copied =>
    if k ∈ copied then vecSweep c rest copied
    else List.replicate (c.count k) k ++ vecSweep c rest (k :: copied)

/-- `topological_sort_vector::sort`. -/
def vectorSort (adj : AdjMap) (c : List Nat) : List Nat :=
  let s := (topologicalSort adj).2
  let pr := vecStackPhase c s []
  pr.1 ++ vecSweep c c pr.2

/-- `topological_sort_array::sort`: same write sequence as the vector adapter,
written into a default-initialized `std::array<T, N>` at increasing indices
(writes beyond `N` would be out of range and are truncated by the model;
cardinality preservation below shows exactly `N` writes happen, so no
truncation and no default-initialized slot survives). -/
def arraySort (adj : AdjMap) (c : List Nat) : List Nat :=
  let w := vectorSort adj c
  (w ++ List.replicate (c.length - w.length) 0).take c.length

/-!
### Concrete scenarios from `main.cpp`

String keys order-preservingly mapped: A=0, B=1, C=2, D=3, E=4, F=5, Z=25.
-/

/-- Scenario A edge declarations, in program order: F→C, F→A, E→A, E→B, C→D,
D→B (`BasicStackExample`). -/
def scenarioA : AdjMap :=
  precede (precede (precede (precede (precede (precede [] 5 2) 5 0) 4 0) 4 1) 2 3) 3 1

/-- Scenario C graph: the six Scenario A edges plus Z→F (`STLVectorExample`). -/
def scenarioC : AdjMap := precede scenarioA 25 5

/-- Scenario C container contents, in `push_back` order: A×3, B×2, C×2, D×2,
E×2, F×3. -/
def containerC : List Nat := [0, 0, 0, 1, 1, 2, 2, 3, 3, 4, 4, 5, 5, 5]

/-!
### Specification-side notions used in the claim statements
-/

/-- The distinct elements of a list in order of first occurrence, skipping
those already in `seen`. -/
def firstOccsAux : List Nat → List Nat → List Nat
  | [], _ => []
  | k :: rest, seen =>
    if k ∈ seen then firstOccsAux rest seen
    else k :: firstOccsAux rest (k :: seen)

/-- Specification of the sweep phase of the sequence adapters: the distinct
container keys that are not graph vertices, in order of first occurrence in
the container, each expanded to its full multiplicity. -/
def groupedTail (adj : AdjMap) (c : List Nat) : List Nat :=
  (((firstOccsAux c []).filter (fun k => decide (k ∉ vertsU adj))).map
    (fun k => List.replicate (c.count k) k)).flatten

/-- One declared edge: `b` is in the successor list of `a`. -/
def stepRel (succs : Nat → List Nat) (a b : Nat) : Prop := b ∈ succs a

/-- `Reaches succs a b`: a path of one or more declared edges from `a` to `b`. -/
def Reaches (succs : Nat → List Nat) : Nat → Nat → Prop :=
  Relation.TransGen (stepRel succs)

/-- Acyclicity of the precedence graph: no key reaches itself (this also rules
out self-edges `precede(v, v)`). -/
def Acyclic (succs : Nat → List Nat) : Prop := ∀ v, ¬ Reaches succs v v

/-- A vertex is "gray" when it has been marked visited but not yet pushed:
its `sort_util` activation is still on the C++ call stack. -/
def gray (st : DfsState) (x : Nat) : Prop := x ∈ st.visited ∧ x ∉ st.stack

/-- The stack is topologically ordered: below every pushed vertex lie all of
its successors.  Since the stack list is read head-first in pop order,
`[u, w].Sublist st.stack` says `u` is consumed strictly before `w`. -/
def AOrd (succs : Nat → List Nat) (st : DfsState) : Prop :=
  ∀ u, u ∈ st.stack → ∀ w, w ∈ succs u → [u, w].Sublist st.stack

/-- Invariant carried through the traversal.  `succs` is the successor
function of the original graph (vivification never changes it) and `U` a
duplicate-free, successor-closed universe of vertices. -/
structure SInv (succs : Nat → List Nat) (U : List Nat) (st : DfsState) : Prop where
  adjLook : ∀ k, lookupAdj st.adj k = succs k
  adjWF : WFAdj st.adj
  visKeys : ∀ v, v ∈ st.visited → v ∈ keysOf st.adj
  visU : ∀ v, v ∈ st.visited → v ∈ U
  keysU : ∀ k, k ∈ keysOf st.adj → k ∈ U
  stackVis : ∀ u, u ∈ st.stack → u ∈ st.visited
  stackNodup : st.stack.Nodup
  stackSucc : ∀ u, u ∈ st.stack → ∀ w, w ∈ succs u → w ∈ st.visited

/-- Fuel measure for `dfsSeq`: unvisited vertices weighted by successor-list
length plus one. -/
def potential (succs : Nat → List Nat) (U : List Nat) (visited : List Nat) : Nat :=
  ((U.filter (fun x => decide (x ∉ visited))).map (fun u => (succs u).length + 1)).sum

/-- Postcondition of a successful `dfsSeq fuel vs st = some st'` run. -/
structure DPost (succs : Nat → List Nat) (U : List Nat) (vs : List Nat)
    (st st' : DfsState) : Prop where
  inv : SInv succs U st'
  visMono : ∀ x, x ∈ st.visited → x ∈ st'.visited
  visDone : ∀ v, v ∈ vs → v ∈ st'.visited
  stackSuffix : st.stack.IsSuffix st'.stack
  grayEq : ∀ x, gray st' x ↔ gray st x
  keysChar : ∀ k, k ∈ keysOf st'.adj ↔ k ∈ keysOf st.adj ∨ k ∈ st'.visited
  potLe : potential succs U st'.visited ≤ potential succs U st.visited
  aord : Acyclic succs → AOrd succs st →
    (∀ g, gray st g → ∀ v, v ∈ vs → Reaches succs g v) → AOrd succs st'

/-- `curLt cur k`: the outer-loop iterator at position `cur` has not yet
passed key `k`. -/
def curLt : Option Nat → Nat → Bool
  | none, _ => true
  | some c, k => decide (c < k)

/-!
### Basic lemmas about the map embedding
-/

theorem lookupAdj_mem {adj : AdjMap} {k w : Nat} (h : w ∈ lookupAdj adj k) :
    ∃ ws, (k, ws) ∈ adj ∧ w ∈ ws := by
  induction adj with
  | nil => simp [lookupAdj] at h
  | cons p rest ih =>
    obtain ⟨a, ws⟩ := p
    by_cases hk : k = a
    · subst hk
      simp [lookupAdj] at h
      exact ⟨ws, by simp, h⟩
    · simp [lookupAdj, hk] at h
      obtain ⟨ws', hmem, hw⟩ := ih h
      exact ⟨ws', by simp [hmem], hw⟩

theorem mem_vertsU_iff {adj : AdjMap} {k : Nat} :
    k ∈ vertsU adj ↔ k ∈ keysOf adj ∨ ∃ p, p ∈ adj ∧ k ∈ p.2 := by
  simp only [vertsU, List.mem_dedup, List.mem_append, keysOf, List.mem_flatten,
    List.mem_map]
  constructor
  · rintro (h | ⟨l, ⟨p, hp, rfl⟩, hk⟩)
    · exact Or.inl h
    · exact Or.inr ⟨p, hp, hk⟩
  · rintro (h | ⟨p, hp, hk⟩)
    · exact Or.inl h
    · exact Or.inr ⟨p.2, ⟨p, hp, rfl⟩, hk⟩

theorem keysOf_subset_vertsU {adj : AdjMap} {k : Nat} (h : k ∈ keysOf adj) :
    k ∈ vertsU adj :=
  mem_vertsU_iff.mpr (Or.inl h)

theorem lookupAdj_subset_vertsU {adj : AdjMap} {k w : Nat}
    (h : w ∈ lookupAdj adj k) : w ∈ vertsU adj := by
  obtain ⟨ws, hmem, hw⟩ := lookupAdj_mem h
  exact mem_vertsU_iff.mpr (Or.inr ⟨(k, ws), hmem, hw⟩)

theorem vertsU_nodup (adj : AdjMap) : (vertsU adj).Nodup :=
  List.nodup_dedup _

theorem WFAdj_cons {k : Nat} {ws : List Nat} {rest : AdjMap} :
    WFAdj ((k, ws) :: rest) ↔ (∀ a, a ∈ keysOf rest → k < a) ∧ WFAdj rest := by
  simp only [WFAdj, keysOf, List.map_cons, List.sorted_cons]

theorem lookupAdj_eq_nil_of_lt {adj : AdjMap} {v : Nat}
    (h : ∀ a, a ∈ keysOf adj → v < a) : lookupAdj adj v = [] := by
  induction adj with
  | nil => rfl
  | cons p rest ih =>
    obtain ⟨a, ws⟩ := p
    have hva : v < a := h a (by simp [keysOf])
    have : v ≠ a := Nat.ne_of_lt hva
    simp only [lookupAdj, if_neg this]
    refine ih fun b hb => h b ?_
    simp only [keysOf, List.map_cons, List.mem_cons]
    exact Or.inr (by simpa [keysOf] using hb)

theorem vivify_lookup {adj : AdjMap} (hwf : WFAdj adj) (v k : Nat) :
    lookupAdj (vivify adj v) k = lookupAdj adj k := by
  induction adj with
  | nil =>
    by_cases hk : k = v <;> simp [vivify, lookupAdj, hk]
  | cons p rest ih =>
    obtain ⟨a, ws⟩ := p
    obtain ⟨hlt, hrest⟩ := WFAdj_cons.mp hwf
    by_cases h1 : v < a
    · by_cases hk : k = v
      · subst hk
        have hne : ¬ k = a := Nat.ne_of_lt h1
        simp only [vivify, if_pos h1, lookupAdj, if_pos rfl, if_neg hne]
        exact (lookupAdj_eq_nil_of_lt (fun b hb => Nat.lt_trans h1 (hlt b hb))).symm
      · simp [vivify, if_pos h1, lookupAdj, hk]
    · by_cases h2 : v = a
      · simp [vivify, if_neg h1, if_pos h2, lookupAdj]
      · simp only [vivify, if_neg h1, if_neg h2, lookupAdj]
        by_cases hk : k = a
        · simp [hk]
        · simp [hk, ih hrest]

theorem keysOf_vivify {adj : AdjMap} {v : Nat} (k : Nat) :
    k ∈ keysOf (vivify adj v) ↔ k ∈ keysOf adj ∨ k = v := by
  induction adj with
  | nil => simp [vivify, keysOf]
  | cons p rest ih =>
    obtain ⟨a, ws⟩ := p
    by_cases h1 : v < a
    · simp [vivify, if_pos h1, keysOf]
      tauto
    · by_cases h2 : v = a
      · subst h2
        simp [vivify, if_neg h1, keysOf]
        tauto
      · simp only [vivify, if_neg h1, if_neg h2, keysOf, List.map_cons, List.mem_cons]
        rw [show (List.map Prod.fst (vivify rest v)) = keysOf (vivify rest v) from rfl]
        rw [ih]
        simp [keysOf]
        tauto

theorem vivify_WF {adj : AdjMap} (hwf : WFAdj adj) (v : Nat) :
    WFAdj (vivify adj v) := by
  induction adj with
  | nil => simp [vivify, WFAdj, keysOf]
  | cons p rest ih =>
    obtain ⟨a, ws⟩ := p
    obtain ⟨hlt, hrest⟩ := WFAdj_cons.mp hwf
    by_cases h1 : v < a
    · rw [show vivify ((a, ws) :: rest) v = (v, []) :: (a, ws) :: rest from by
        simp [vivify, if_pos h1]]
      rw [WFAdj_cons]
      refine ⟨?_, hwf⟩
      intro b hb
      simp [keysOf] at hb
      rcases hb with rfl | hb
      · exact h1
      · exact Nat.lt_trans h1 (hlt b (by simpa [keysOf] using hb))
    · by_cases h2 : v = a
      · simpa [vivify, if_neg h1, if_pos h2] using hwf
      · rw [show vivify ((a, ws) :: rest) v = (a, ws) :: vivify rest v from by
          simp [vivify, if_neg h1, if_neg h2]]
        rw [WFAdj_cons]
        refine ⟨?_, ih hrest⟩
        intro b hb
        rw [keysOf_vivify] at hb
        rcases hb with hb | rfl
        · exact hlt b hb
        · exact Nat.lt_of_le_of_ne (Nat.le_of_not_lt h1) (Ne.symm h2)

theorem vivify_eq_of_mem {adj : AdjMap} (hwf : WFAdj adj) {v : Nat}
    (h : v ∈ keysOf adj) : vivify adj v = adj := by
  induction adj with
  | nil => simp [keysOf] at h
  | cons p rest ih =>
    obtain ⟨a, ws⟩ := p
    obtain ⟨hlt, hrest⟩ := WFAdj_cons.mp hwf
    by_cases h2 : v = a
    · have h1 : ¬ v < a := by omega
      simp [vivify, if_neg h1, if_pos h2]
    · have hv : v ∈ keysOf rest := by
        simp [keysOf] at h ⊢
        tauto
      have h1 : ¬ v < a := by
        have := hlt v hv
        omega
      simp [vivify, if_neg h1, if_neg h2, ih hrest hv]

theorem WFAdj_keys_nodup {adj : AdjMap} (hwf : WFAdj adj) : (keysOf adj).Nodup :=
  hwf.nodup

theorem lookupAdj_entry {adj : AdjMap} (hwf : WFAdj adj) {k : Nat} {ws : List Nat}
    (h : (k, ws) ∈ adj) : lookupAdj adj k = ws := by
  induction adj with
  | nil => simp at h
  | cons p rest ih =>
    obtain ⟨a, ws'⟩ := p
    obtain ⟨hlt, hrest⟩ := WFAdj_cons.mp hwf
    rcases List.mem_cons.mp h with heq | hmem
    · obtain ⟨rfl, rfl⟩ := Prod.mk.inj heq
      simp [lookupAdj]
    · have hk : k ∈ keysOf rest := by
        simp only [keysOf, List.mem_map]
        exact ⟨⟨k, ws⟩, hmem, rfl⟩
      have hne : ¬ k = a := by
        have := hlt k hk
        omega
      simp [lookupAdj, hne, ih hrest hmem]

theorem keysOf_precede {adj : AdjMap} {v w : Nat} (k : Nat) :
    k ∈ keysOf (precede adj v w) ↔ k ∈ keysOf adj ∨ k = v := by
  induction adj with
  | nil => simp [precede, keysOf]
  | cons p rest ih =>
    obtain ⟨a, ws⟩ := p
    by_cases h1 : v < a
    · simp [precede, if_pos h1, keysOf]
      tauto
    · by_cases h2 : v = a
      · subst h2
        simp [precede, if_neg h1, keysOf]
        tauto
      · simp only [precede, if_neg h1, if_neg h2, keysOf, List.map_cons, List.mem_cons]
        rw [show (List.map Prod.fst (precede rest v w)) = keysOf (precede rest v w) from rfl]
        rw [ih]
        simp [keysOf]
        tauto

theorem precede_WF {adj : AdjMap} (hwf : WFAdj adj) (v w : Nat) :
    WFAdj (precede adj v w) := by
  induction adj with
  | nil => simp [precede, WFAdj, keysOf]
  | cons p rest ih =>
    obtain ⟨a, ws⟩ := p
    obtain ⟨hlt, hrest⟩ := WFAdj_cons.mp hwf
    by_cases h1 : v < a
    · rw [show precede ((a, ws) :: rest) v w = (v, [w]) :: (a, ws) :: rest from by
        simp [precede, if_pos h1]]
      rw [WFAdj_cons]
      refine ⟨?_, hwf⟩
      intro b hb
      simp [keysOf] at hb
      rcases hb with rfl | hb
      · exact h1
      · exact Nat.lt_trans h1 (hlt b (by simpa [keysOf] using hb))
    · by_cases h2 : v = a
      · rw [show precede ((a, ws) :: rest) v w = (a, ws ++ [w]) :: rest from by
          simp [precede, if_neg h1, if_pos h2]]
        rw [WFAdj_cons]
        exact ⟨hlt, hrest⟩
      · rw [show precede ((a, ws) :: rest) v w = (a, ws) :: precede rest v w from by
          simp [precede, if_neg h1, if_neg h2]]
        rw [WFAdj_cons]
        refine ⟨?_, ih hrest⟩
        intro b hb
        rw [keysOf_precede] at hb
        rcases hb with hb | rfl
        · exact hlt b hb
        · exact Nat.lt_of_le_of_ne (Nat.le_of_not_lt h1) (Ne.symm h2)

/-!
### Lemmas about the outer-loop iterator
-/

theorem findNext_none {adj : AdjMap} {c : Nat} (h : findNext adj c = none) :
    ∀ k, k ∈ keysOf adj → ¬ c < k := by
  induction adj with
  | nil => intro k hk; simp [keysOf] at hk
  | cons p rest ih =>
    obtain ⟨a, ws⟩ := p
    by_cases hca : c < a
    · simp [findNext, if_pos hca] at h
    · simp only [findNext, if_neg hca] at h
      intro k hk
      simp [keysOf] at hk
      rcases hk with rfl | hk
      · exact hca
      · exact ih h k (by simpa [keysOf] using hk)

theorem findNext_some {adj : AdjMap} {c k : Nat} (h : findNext adj c = some k) :
    k ∈ keysOf adj ∧ c < k := by
  induction adj with
  | nil => simp [findNext] at h
  | cons p rest ih =>
    obtain ⟨a, ws⟩ := p
    by_cases hca : c < a
    · simp only [findNext, if_pos hca, Option.some.injEq] at h
      subst h
      exact ⟨by simp [keysOf], hca⟩
    · simp only [findNext, if_neg hca] at h
      obtain ⟨hmem, hlt⟩ := ih h
      exact ⟨by simp [keysOf]; right; simpa [keysOf] using hmem, hlt⟩

theorem findNext_min {adj : AdjMap} (hwf : WFAdj adj) {c k : Nat}
    (h : findNext adj c = some k) :
    ∀ b, b ∈ keysOf adj → c < b → k ≤ b := by
  induction adj with
  | nil => simp [findNext] at h
  | cons p rest ih =>
    obtain ⟨a, ws⟩ := p
    obtain ⟨hlt, hrest⟩ := WFAdj_cons.mp hwf
    by_cases hca : c < a
    · simp only [findNext, if_pos hca, Option.some.injEq] at h
      subst h
      intro b hb _
      simp [keysOf] at hb
      rcases hb with rfl | hb
      · exact Nat.le_refl _
      · exact Nat.le_of_lt (hlt b (by simpa [keysOf] using hb))
    · simp only [findNext, if_neg hca] at h
      intro b hb hcb
      simp [keysOf] at hb
      rcases hb with rfl | hb
      · exact absurd hcb hca
      · exact ih hrest h b (by simpa [keysOf] using hb) hcb

theorem nextKeyAfter_none {adj : AdjMap} {cur : Option Nat}
    (h : nextKeyAfter adj cur = none) :
    ∀ k, k ∈ keysOf adj → curLt cur k = false := by
  cases cur with
  | none =>
    cases adj with
    | nil => intro k hk; simp [keysOf] at hk
    | cons p rest => simp [nextKeyAfter] at h
  | some c =>
    intro k hk
    simp only [curLt, decide_eq_false_iff_not]
    exact findNext_none h k hk

theorem nextKeyAfter_some {adj : AdjMap} (hwf : WFAdj adj) {cur : Option Nat} {k : Nat}
    (h : nextKeyAfter adj cur = some k) :
    k ∈ keysOf adj ∧ curLt cur k = true ∧
      ∀ b, b ∈ keysOf adj → curLt cur b = true → k ≤ b := by
  cases cur with
  | none =>
    cases adj with
    | nil => simp [nextKeyAfter] at h
    | cons p rest =>
      obtain ⟨a, ws⟩ := p
      simp only [nextKeyAfter, Option.some.injEq] at h
      subst h
      obtain ⟨hlt, _⟩ := WFAdj_cons.mp hwf
      refine ⟨by simp [keysOf], rfl, ?_⟩
      intro b hb _
      simp [keysOf] at hb
      rcases hb with rfl | hb
      · exact Nat.le_refl _
      · exact Nat.le_of_lt (hlt b (by simpa [keysOf] using hb))
  | some c =>
    obtain ⟨hmem, hlt⟩ := findNext_some h
    refine ⟨hmem, by simp [curLt, hlt], ?_⟩
    intro b hb hcb
    simp only [curLt, decide_eq_true_eq] at hcb
    exact findNext_min hwf h b hb hcb

/-!
### Lemmas about the fuel measure
-/

theorem sum_le_of_sublist {l₁ l₂ : List Nat} (h : l₁.Sublist l₂) : l₁.sum ≤ l₂.sum := by
  induction h with
  | slnil => exact Nat.le_refl _
  | cons a _ ih => simpa using Nat.le_trans ih (Nat.le_add_left _ _)
  | cons₂ a _ ih => simpa using ih

theorem potential_mono {succs : Nat → List Nat} {U v1 v2 : List Nat}
    (h : ∀ x, x ∈ v1 → x ∈ v2) :
    potential succs U v2 ≤ potential succs U v1 := by
  apply sum_le_of_sublist
  apply List.Sublist.map
  apply List.monotone_filter_right
  intro a ha
  simp only [decide_eq_true_eq] at ha ⊢
  exact fun hmem => ha (h a hmem)

theorem potential_nil {succs : Nat → List Nat} {U : List Nat} :
    potential succs U [] = (U.map (fun u => (succs u).length + 1)).sum := by
  simp [potential]

theorem potential_visit {succs : Nat → List Nat} {U vis : List Nat} (hU : U.Nodup)
    {v : Nat} (hv : v ∈ U) (hnv : v ∉ vis) :
    potential succs U (v :: vis) + ((succs v).length + 1) = potential succs U vis := by
  classical
  have hfil : U.filter (fun x => decide (x ∉ v :: vis)) =
      (U.filter (fun x => decide (x ∉ vis))).filter (fun x => decide (x ≠ v)) := by
    rw [List.filter_filter]
    apply List.filter_congr
    intro x _
    simp [not_or, Bool.and_comm]
  have hvmem : v ∈ U.filter (fun x => decide (x ∉ vis)) := by
    rw [List.mem_filter]
    exact ⟨hv, by simpa using hnv⟩
  have hnodup : (U.filter (fun x => decide (x ∉ vis))).Nodup := hU.filter _
  have herase : (U.filter (fun x => decide (x ∉ vis))).filter (fun x => decide (x ≠ v)) =
      (U.filter (fun x => decide (x ∉ vis))).erase v := by
    rw [List.Nodup.erase_eq_filter hnodup]
    apply List.filter_congr
    intro x _
    rw [Bool.eq_iff_iff]
    simp [bne]
  have hperm : List.Perm (U.filter (fun x => decide (x ∉ vis)))
      (v :: (U.filter (fun x => decide (x ∉ vis))).erase v) :=
    List.perm_cons_erase hvmem
  have hsum := List.Perm.sum_eq
    (List.Perm.map (fun u => (succs u).length + 1) hperm)
  unfold potential
  rw [hfil, herase]
  rw [hsum]
  simp [Nat.add_comm]

/-!
### The main traversal invariant
-/

theorem dfsSeq_nil (fuel : Nat) (st : DfsState) : dfsSeq fuel [] st = some st := by
  cases fuel <;> rfl

theorem DPost_refl {succs : Nat → List Nat} {U : List Nat} {st : DfsState}
    (hinv : SInv succs U st) : DPost succs U [] st st where
  inv := hinv
  visMono := fun _ hx => hx
  visDone := by intro v hv; simp at hv
  stackSuffix := List.suffix_refl _
  grayEq := fun _ => Iff.rfl
  keysChar := fun k => ⟨fun h => Or.inl h, fun h => h.elim id (fun h' => hinv.visKeys k h')⟩
  potLe := Nat.le_refl _
  aord := fun _ h _ => h

theorem dfsSeq_spec (succs : Nat → List Nat) (U : List Nat) (hU : U.Nodup)
    (hcl : ∀ u, u ∈ U → ∀ w, w ∈ succs u → w ∈ U) :
    ∀ fuel vs st, SInv succs U st → (∀ v, v ∈ vs → v ∈ U) →
      vs.length + potential succs U st.visited ≤ fuel →
      ∃ st', dfsSeq fuel vs st = some st' ∧ DPost succs U vs st st' := by
  intro fuel
  induction fuel with
  | zero =>
    intro vs st hinv hvs hfuel
    cases vs with
    | nil => exact ⟨st, dfsSeq_nil 0 st, DPost_refl hinv⟩
    | cons v vs' => simp at hfuel
  | succ f ih =>
    intro vs st hinv hvs hfuel
    cases vs with
    | nil => exact ⟨st, dfsSeq_nil _ st, DPost_refl hinv⟩
    | cons v vs' =>
      by_cases hv : v ∈ st.visited
      · -- candidate already visited: skip it
        obtain ⟨st', heq, hpost⟩ := ih vs' st hinv
          (fun x hx => hvs x (List.mem_cons_of_mem v hx))
          (by simp at hfuel; omega)
        refine ⟨st', by simpa [dfsSeq, hv] using heq, ?_⟩
        exact
          { inv := hpost.inv
            visMono := hpost.visMono
            visDone := by
              intro x hx
              rcases List.mem_cons.mp hx with rfl | hx
              · exact hpost.visMono x hv
              · exact hpost.visDone x hx
            stackSuffix := hpost.stackSuffix
            grayEq := hpost.grayEq
            keysChar := hpost.keysChar
            potLe := hpost.potLe
            aord := fun hacy hord hreach =>
              hpost.aord hacy hord
                (fun g hg x hx => hreach g hg x (List.mem_cons_of_mem v hx)) }
      · -- candidate unvisited: this is the body of sort_util(v)
        have hvU : v ∈ U := hvs v (List.mem_cons_self _ _)
        have hvnotstack : v ∉ st.stack := fun hc => hv (hinv.stackVis v hc)
        set st1 : DfsState := ⟨vivify st.adj v, v :: st.visited, st.stack⟩ with hst1
        have hlook1 : ∀ k, lookupAdj st1.adj k = succs k := fun k =>
          (vivify_lookup hinv.adjWF v k).trans (hinv.adjLook k)
        have hinv1 : SInv succs U st1 :=
          { adjLook := hlook1
            adjWF := vivify_WF hinv.adjWF v
            visKeys := by
              intro x hx
              rcases List.mem_cons.mp hx with rfl | hx
              · exact (keysOf_vivify x).mpr (Or.inr rfl)
              · exact (keysOf_vivify x).mpr (Or.inl (hinv.visKeys x hx))
            visU := by
              intro x hx
              rcases List.mem_cons.mp hx with rfl | hx
              · exact hvU
              · exact hinv.visU x hx
            keysU := by
              intro k hk
              rcases (keysOf_vivify k).mp hk with hk | rfl
              · exact hinv.keysU k hk
              · exact hvU
            stackVis := fun u hu => List.mem_cons_of_mem v (hinv.stackVis u hu)
            stackNodup := hinv.stackNodup
            stackSucc := fun u hu w hw =>
              List.mem_cons_of_mem v (hinv.stackSucc u hu w hw) }
        have hpot1 : potential succs U st1.visited + ((succs v).length + 1) =
            potential succs U st.visited := potential_visit hU hvU hv
        have hlen1 : (lookupAdj st1.adj v).length + potential succs U st1.visited ≤ f := by
          rw [hlook1 v]
          simp only [List.length_cons] at hfuel
          omega
        obtain ⟨st2, heq2, hpost2⟩ := ih (lookupAdj st1.adj v) st1 hinv1
          (by rw [hlook1 v]; exact fun w hw => hcl v hvU w hw) hlen1
        -- v is gray throughout the recursive processing of its successors
        have hgray1v : gray st1 v := ⟨(List.mem_cons_self _ _), hvnotstack⟩
        have hgray2v : gray st2 v := (hpost2.grayEq v).mpr hgray1v
        have hvnot2 : v ∉ st2.stack := hgray2v.2
        set st2' : DfsState := ⟨st2.adj, st2.visited, v :: st2.stack⟩ with hst2'
        have hsuccvis : ∀ w, w ∈ succs v → w ∈ st2.visited := by
          intro w hw
          exact hpost2.visDone w (by rw [hlook1 v]; exact hw)
        have hinv2' : SInv succs U st2' :=
          { adjLook := hpost2.inv.adjLook
            adjWF := hpost2.inv.adjWF
            visKeys := hpost2.inv.visKeys
            visU := hpost2.inv.visU
            keysU := hpost2.inv.keysU
            stackVis := by
              intro u hu
              rcases List.mem_cons.mp hu with rfl | hu
              · exact hpost2.visMono u (List.mem_cons_self _ _)
              · exact hpost2.inv.stackVis u hu
            stackNodup := List.nodup_cons.mpr ⟨hvnot2, hpost2.inv.stackNodup⟩
            stackSucc := by
              intro u hu w hw
              rcases List.mem_cons.mp hu with rfl | hu
              · exact hsuccvis w hw
              · exact hpost2.inv.stackSucc u hu w hw }
        -- gray set of st2' equals that of st
        have hgray2' : ∀ x, gray st2' x ↔ gray st x := by
          intro x
          constructor
          · rintro ⟨hxv, hxs⟩
            have hxne : x ≠ v := fun hc => hxs (hc ▸ (List.mem_cons_self _ _))
            have hxns : x ∉ st2.stack := fun hc => hxs (List.mem_cons_of_mem v hc)
            have hg2 : gray st2 x := ⟨hxv, hxns⟩
            have hg1 : gray st1 x := (hpost2.grayEq x).mp hg2
            obtain ⟨hg1v, hg1s⟩ := hg1
            rcases List.mem_cons.mp hg1v with rfl | hxvis
            · exact absurd rfl hxne
            · exact ⟨hxvis, hg1s⟩
          · rintro ⟨hxv, hxs⟩
            have hxne : x ≠ v := fun hc => hv (hc ▸ hxv)
            have hg1 : gray st1 x := ⟨List.mem_cons_of_mem v hxv, hxs⟩
            have hg2 : gray st2 x := (hpost2.grayEq x).mpr hg1
            refine ⟨hg2.1, ?_⟩
            intro hc
            rcases List.mem_cons.mp hc with rfl | hc
            · exact hxne rfl
            · exact hg2.2 hc
        have hpot2' : potential succs U st2'.visited ≤ potential succs U st.visited := by
          have h1 := hpost2.potLe
          have h2 : potential succs U st2'.visited = potential succs U st2.visited := rfl
          omega
        have hlen2 : vs'.length + potential succs U st2'.visited ≤ f := by
          have h1 := hpost2.potLe
          simp only [List.length_cons] at hfuel
          have h2 : potential succs U st2'.visited = potential succs U st2.visited := rfl
          omega
        obtain ⟨st3, heq3, hpost3⟩ := ih vs' st2' hinv2'
          (fun x hx => hvs x (List.mem_cons_of_mem v hx)) hlen2
        have heqfinal : dfsSeq (f + 1) (v :: vs') st = some st3 := by
          simp only [dfsSeq, if_neg hv]
          rw [show (⟨vivify st.adj v, v :: st.visited, st.stack⟩ : DfsState) = st1 from rfl]
          rw [heq2]
          exact heq3
        refine ⟨st3, heqfinal, ?_⟩
        have hvisMono1 : ∀ x, x ∈ st.visited → x ∈ st3.visited := fun x hx =>
          hpost3.visMono x (hpost2.visMono x (List.mem_cons_of_mem v hx))
        have hvvis3 : v ∈ st3.visited :=
          hpost3.visMono v (hpost2.visMono v (List.mem_cons_self _ _))
        exact
          { inv := hpost3.inv
            visMono := hvisMono1
            visDone := by
              intro x hx
              rcases List.mem_cons.mp hx with rfl | hx
              · exact hvvis3
              · exact hpost3.visDone x hx
            stackSuffix := by
              have h1 : st.stack.IsSuffix st2.stack := hpost2.stackSuffix
              have h2 : st2.stack.IsSuffix st2'.stack := by
                rw [hst2']
                exact List.suffix_cons v st2.stack
              exact (h1.trans h2).trans hpost3.stackSuffix
            grayEq := fun x => (hpost3.grayEq x).trans (hgray2' x)
            keysChar := by
              intro k
              constructor
              · intro hk
                rcases (hpost3.keysChar k).mp hk with hk | hk
                · rcases (hpost2.keysChar k).mp hk with hk | hk
                  · rcases (keysOf_vivify k).mp hk with hk | rfl
                    · exact Or.inl hk
                    · exact Or.inr hvvis3
                  · exact Or.inr (hpost3.visMono k hk)
                · exact Or.inr hk
              · intro hk
                rcases hk with hk | hk
                · refine (hpost3.keysChar k).mpr (Or.inl ?_)
                  refine (hpost2.keysChar k).mpr (Or.inl ?_)
                  exact (keysOf_vivify k).mpr (Or.inl hk)
                · exact hpost3.inv.visKeys k hk
            potLe := by
              have h3 := hpost3.potLe
              omega
            aord := by
              intro hacy hord hreach
              have hord1 : AOrd succs st1 := hord
              have hreach1 : ∀ g, gray st1 g → ∀ w, w ∈ lookupAdj st1.adj v →
                  Reaches succs g w := by
                intro g hg w hw
                rw [hlook1 v] at hw
                obtain ⟨hgv, hgs⟩ := hg
                rcases List.mem_cons.mp hgv with rfl | hgvis
                · exact Relation.TransGen.single hw
                · exact Relation.TransGen.tail
                    (hreach g ⟨hgvis, hgs⟩ v (List.mem_cons_self _ _)) hw
              have hord2 : AOrd succs st2 := hpost2.aord hacy hord1 hreach1
              have hord2' : AOrd succs st2' := by
                intro u hu w hw
                rcases List.mem_cons.mp hu with rfl | hu
                · -- u = v, freshly pushed: each successor already lies below
                  have hwvis : w ∈ st2.visited := hsuccvis w hw
                  have hwstack : w ∈ st2.stack := by
                    by_contra hws
                    have hg2w : gray st2 w := ⟨hwvis, hws⟩
                    have hg1w : gray st1 w := (hpost2.grayEq w).mp hg2w
                    obtain ⟨hg1v', hg1s'⟩ := hg1w
                    rcases List.mem_cons.mp hg1v' with rfl | hwvis0
                    · exact hacy w (Relation.TransGen.single hw)
                    · exact hacy w (Relation.TransGen.tail
                        (hreach w ⟨hwvis0, hg1s'⟩ _ (List.mem_cons_self _ _)) hw)
                  exact List.Sublist.cons₂ _ (List.singleton_sublist.mpr hwstack)
                · exact List.Sublist.cons v (hord2 u hu w hw)
              have hreach2' : ∀ g, gray st2' g → ∀ x, x ∈ vs' →
                  Reaches succs g x := by
                intro g hg x hx
                exact hreach g ((hgray2' g).mp hg) x (List.mem_cons_of_mem v hx)
              exact hpost3.aord hacy hord2' hreach2' }

theorem length_filter_lt {p : Nat → Bool} {l : List Nat} {a : Nat}
    (ha : a ∈ l) (hpa : p a = false) : (l.filter p).length < l.length := by
  induction l with
  | nil => simp at ha
  | cons b rest ih =>
    rcases List.mem_cons.mp ha with rfl | ha
    · rw [List.filter_cons, hpa]
      simp only [Bool.false_eq_true, if_false, List.length_cons]
      exact Nat.lt_succ_of_le (List.length_filter_le p rest)
    · rw [List.filter_cons]
      cases hpb : p b
      · simp only [Bool.false_eq_true, if_false, List.length_cons]
        exact Nat.lt_succ_of_lt (ih ha)
      · simp only [eq_self_iff_true, if_true, List.length_cons, Nat.succ_lt_succ_iff]
        exact ih ha

theorem curLt_trans {cur : Option Nat} {k x : Nat} (h1 : curLt cur k = true)
    (h2 : k < x) : curLt cur x = true := by
  cases cur with
  | none => rfl
  | some c =>
    simp only [curLt, decide_eq_true_eq] at h1 ⊢
    exact Nat.lt_trans h1 h2

theorem sortLoop_spec (succs : Nat → List Nat) (U : List Nat) (hU : U.Nodup)
    (hcl : ∀ u, u ∈ U → ∀ w, w ∈ succs u → w ∈ U) (fuelD : Nat)
    (hfD : potential succs U [] + 1 ≤ fuelD) :
    ∀ fuelO cur st, SInv succs U st →
      (∀ x, x ∈ st.visited → x ∈ st.stack) →
      (∀ k, k ∈ keysOf st.adj → curLt cur k = false → k ∈ st.visited) →
      (U.filter (fun x => curLt cur x)).length + 1 ≤ fuelO →
      ∃ st', sortLoop fuelD fuelO cur st = some st' ∧
        SInv succs U st' ∧
        (∀ x, x ∈ st.visited → x ∈ st'.visited) ∧
        (∀ x, x ∈ st'.visited → x ∈ st'.stack) ∧
        (∀ k, k ∈ keysOf st'.adj → k ∈ st'.visited) ∧
        st.stack.IsSuffix st'.stack ∧
        (∀ k, k ∈ keysOf st'.adj ↔ k ∈ keysOf st.adj ∨ k ∈ st'.visited) ∧
        (Acyclic succs → AOrd succs st → AOrd succs st') := by
  intro fuelO
  induction fuelO with
  | zero =>
    intro cur st _ _ _ hfuel
    omega
  | succ fO ih =>
    intro cur st hinv hgraynone hcur hfuel
    cases hnext : nextKeyAfter st.adj cur with
    | none =>
      refine ⟨st, by simp [sortLoop, hnext], hinv, fun _ hx => hx, hgraynone, ?_,
        List.suffix_refl _, fun k => ⟨fun h => Or.inl h, fun h => h.elim id (hinv.visKeys k)⟩,
        fun _ h => h⟩
      intro k hk
      exact hcur k hk (nextKeyAfter_none hnext k hk)
    | some k =>
      obtain ⟨hkmem, hklt, hkmin⟩ := nextKeyAfter_some hinv.adjWF hnext
      have hkU : k ∈ U := hinv.keysU k hkmem
      -- the measure strictly decreases when the iterator advances to k
      have hmeasure : (U.filter (fun x => curLt (some k) x)).length <
          (U.filter (fun x => curLt cur x)).length := by
        have hstep : U.filter (fun x => curLt (some k) x) =
            (U.filter (fun x => curLt cur x)).filter (fun x => curLt (some k) x) := by
          rw [List.filter_filter]
          apply List.filter_congr
          intro x _
          cases hx : curLt (some k) x
          · simp
          · simp only [Bool.true_and]
            simp only [curLt, decide_eq_true_eq] at hx
            exact (curLt_trans hklt hx).symm
        rw [hstep]
        apply length_filter_lt (List.mem_filter.mpr ⟨hkU, hklt⟩)
        simp [curLt]
      have hnextinv : ∀ st'' : DfsState, (∀ x, x ∈ st.visited → x ∈ st''.visited) →
          k ∈ st''.visited →
          (∀ k', k' ∈ keysOf st''.adj → k' ∈ keysOf st.adj ∨ k' ∈ st''.visited) →
          ∀ k', k' ∈ keysOf st''.adj → curLt (some k) k' = false → k' ∈ st''.visited := by
        intro st'' hmono hkvis hkeys k' hk' hlt'
        simp only [curLt, decide_eq_false_iff_not] at hlt'
        rcases hkeys k' hk' with hk'' | hvis
        · by_cases hck : curLt cur k' = true
          · have := hkmin k' hk'' hck
            have : k' = k := by omega
            exact this ▸ hkvis
          · exact hmono k' (hcur k' hk'' (by simpa using hck))
        · exact hvis
      by_cases hkv : k ∈ st.visited
      · obtain ⟨st', heq, h1, h2, h3, h4, h5, h6, h7⟩ := ih (some k) st hinv hgraynone
          (hnextinv st (fun _ hx => hx) hkv (fun k' hk' => Or.inl hk'))
          (by omega)
        exact ⟨st', by simpa [sortLoop, hnext, hkv] using heq, h1, h2, h3, h4, h5, h6, h7⟩
      · have hpotle : 1 + potential succs U st.visited ≤ fuelD := by
          have := @potential_mono succs U [] st.visited (fun x hx => by simp at hx)
          omega
        obtain ⟨st2, heq2, hpost2⟩ := dfsSeq_spec succs U hU hcl fuelD [k] st hinv
          (by intro x hx; simp at hx; subst hx; exact hkU) (by simpa using hpotle)
        have hmono2 : ∀ x, x ∈ st.visited → x ∈ st2.visited := hpost2.visMono
        have hkvis2 : k ∈ st2.visited := hpost2.visDone k (by simp)
        have hgraynone2 : ∀ x, x ∈ st2.visited → x ∈ st2.stack := by
          intro x hx
          by_contra hxs
          have hg : gray st x := (hpost2.grayEq x).mp ⟨hx, hxs⟩
          exact hg.2 (hgraynone x hg.1)
        obtain ⟨st', heq, h1, h2, h3, h4, h5, h6, h7⟩ := ih (some k) st2 hpost2.inv
          hgraynone2
          (hnextinv st2 hmono2 hkvis2
            (fun k' hk' => (hpost2.keysChar k').mp hk'))
          (by omega)
        refine ⟨st', by simpa [sortLoop, hnext, hkv, heq2] using heq, h1,
          fun x hx => h2 x (hmono2 x hx), h3, h4,
          hpost2.stackSuffix.trans h5, ?_, ?_⟩
        · intro k'
          constructor
          · intro hk'
            rcases (h6 k').mp hk' with hk' | hvis
            · rcases (hpost2.keysChar k').mp hk' with hk' | hvis
              · exact Or.inl hk'
              · exact Or.inr (h2 k' hvis)
            · exact Or.inr hvis
          · intro hk'
            rcases hk' with hk' | hvis
            · exact (h6 k').mpr (Or.inl ((hpost2.keysChar k').mpr (Or.inl hk')))
            · exact h1.visKeys k' hvis
        · intro hacy hord
          refine h7 hacy ?_
          exact hpost2.aord hacy hord
            (fun g hg => absurd (hgraynone g hg.1) hg.2)

/-!
### Master specification of `topological_sort`
-/

theorem topologicalSortR_spec (adj : AdjMap) (h : WFAdj adj) :
    ∃ st', topologicalSortR adj = some st' ∧
      SInv (lookupAdj adj) (vertsU adj) st' ∧
      (∀ x, x ∈ st'.visited → x ∈ st'.stack) ∧
      (∀ k, k ∈ keysOf st'.adj → k ∈ st'.visited) ∧
      (∀ k, k ∈ keysOf st'.adj ↔ k ∈ keysOf adj ∨ k ∈ st'.visited) ∧
      (Acyclic (lookupAdj adj) → AOrd (lookupAdj adj) st') := by
  have hfD : potential (lookupAdj adj) (vertsU adj) [] + 1 ≤ dFuel adj := by
    rw [potential_nil]
    rw [dFuel]
  have hinv0 : SInv (lookupAdj adj) (vertsU adj) ⟨adj, [], []⟩ :=
    { adjLook := fun _ => rfl
      adjWF := h
      visKeys := by intro v hv; simp at hv
      visU := by intro v hv; simp at hv
      keysU := fun k hk => keysOf_subset_vertsU hk
      stackVis := by intro u hu; simp at hu
      stackNodup := List.nodup_nil
      stackSucc := by intro u hu; simp at hu }
  have hfuel : ((vertsU adj).filter (fun x => curLt none x)).length + 1 ≤ oFuel adj := by
    have : (vertsU adj).filter (fun x => curLt none x) = vertsU adj :=
      List.filter_eq_self.mpr (fun a _ => rfl)
    rw [this, oFuel]
  obtain ⟨st', heq, h1, h2, h3, h4, h5, h6, h7⟩ :=
    sortLoop_spec (lookupAdj adj) (vertsU adj) (vertsU_nodup adj)
      (fun u _ w hw => lookupAdj_subset_vertsU hw) (dFuel adj) hfD
      (oFuel adj) none ⟨adj, [], []⟩ hinv0
      (by intro x hx; simp at hx)
      (by intro k _ hlt; simp [curLt] at hlt)
      hfuel
  refine ⟨st', heq, h1, h3, h4, h6, ?_⟩
  intro hacy
  exact h7 hacy (by intro u hu; simp at hu)

theorem topologicalSort_master (adj : AdjMap) (h : WFAdj adj) :
    (topologicalSortR adj).isSome = true ∧
    WFAdj (topologicalSort adj).1 ∧
    (∀ k, lookupAdj (topologicalSort adj).1 k = lookupAdj adj k) ∧
    (topologicalSort adj).2.Nodup ∧
    (∀ k, k ∈ (topologicalSort adj).2 ↔ k ∈ vertsU adj) ∧
    (∀ k, k ∈ keysOf (topologicalSort adj).1 ↔ k ∈ vertsU adj) ∧
    (Acyclic (lookupAdj adj) →
      ∀ u, u ∈ (topologicalSort adj).2 → ∀ w, w ∈ lookupAdj adj u →
        [u, w].Sublist (topologicalSort adj).2) := by
  obtain ⟨st', heq, hinv, hgraynone, hkeysvis, hkeyschar, haord⟩ :=
    topologicalSortR_spec adj h
  have hts : topologicalSort adj = (st'.adj, st'.stack) := by
    rw [topologicalSort, heq]
  -- every vertex ends up visited
  have hvis : ∀ k, k ∈ st'.visited ↔ k ∈ vertsU adj := by
    intro k
    constructor
    · exact hinv.visU k
    · intro hk
      rcases mem_vertsU_iff.mp hk with hk | ⟨⟨u, ws⟩, hmem, hw⟩
      · exact hkeysvis k ((hkeyschar k).mpr (Or.inl hk))
      · have humem : u ∈ keysOf adj := by
          simp only [keysOf, List.mem_map]
          exact ⟨(u, ws), hmem, rfl⟩
        have huvis : u ∈ st'.visited := hkeysvis u ((hkeyschar u).mpr (Or.inl humem))
        have hustack : u ∈ st'.stack := hgraynone u huvis
        have hws : lookupAdj adj u = ws := lookupAdj_entry h hmem
        exact hinv.stackSucc u hustack k (by rw [hws]; exact hw)
  have hstackmem : ∀ k, k ∈ st'.stack ↔ k ∈ vertsU adj := fun k =>
    ⟨fun hk => (hvis k).mp (hinv.stackVis k hk),
     fun hk => hgraynone k ((hvis k).mpr hk)⟩
  refine ⟨by rw [heq]; rfl, ?_, ?_, ?_, ?_, ?_, ?_⟩
  · rw [hts]
    exact hinv.adjWF
  · intro k
    rw [hts]
    exact hinv.adjLook k
  · rw [hts]
    exact hinv.stackNodup
  · intro k
    rw [hts]
    exact hstackmem k
  · intro k
    rw [hts]
    constructor
    · intro hk
      rcases (hkeyschar k).mp hk with hk | hk
      · exact keysOf_subset_vertsU hk
      · exact (hvis k).mp hk
    · intro hk
      exact hinv.visKeys k ((hvis k).mpr hk)
  · intro hacy u hu w hw
    rw [hts] at hu ⊢
    exact haord hacy u hu w hw

/-!
### After one call the graph is stable: no further vivification
-/

theorem dfsSeq_adj_eq :
    ∀ fuel vs (st st' : DfsState), WFAdj st.adj →
      (∀ k w, w ∈ lookupAdj st.adj k → w ∈ keysOf st.adj) →
      (∀ v, v ∈ vs → v ∈ keysOf st.adj) →
      dfsSeq fuel vs st = some st' → st'.adj = st.adj := by
  intro fuel
  induction fuel with
  | zero =>
    intro vs st st' _ _ _ heq
    cases vs with
    | nil =>
      rw [dfsSeq_nil] at heq
      cases heq
      rfl
    | cons v vs' => simp [dfsSeq] at heq
  | succ f ih =>
    intro vs st st' hwf hcl hvs heq
    cases vs with
    | nil =>
      rw [dfsSeq_nil] at heq
      cases heq
      rfl
    | cons v vs' =>
      by_cases hv : v ∈ st.visited
      · simp only [dfsSeq, if_pos hv] at heq
        exact ih vs' st st' hwf hcl (fun x hx => hvs x (List.mem_cons_of_mem v hx)) heq
      · have hvk : v ∈ keysOf st.adj := hvs v (List.mem_cons_self _ _)
        have hviv : vivify st.adj v = st.adj := vivify_eq_of_mem hwf hvk
        simp only [dfsSeq, if_neg hv] at heq
        rw [hviv] at heq
        cases h2 : dfsSeq f (lookupAdj st.adj v) ⟨st.adj, v :: st.visited, st.stack⟩ with
        | none => rw [h2] at heq; cases heq
        | some st2 =>
          rw [h2] at heq
          have hadj2 : st2.adj = st.adj :=
            ih (lookupAdj st.adj v) ⟨st.adj, v :: st.visited, st.stack⟩ st2 hwf hcl
              (fun w hw => hcl v w hw) h2
          have hadj3 : st'.adj = st2.adj := by
            have := ih vs' ⟨st2.adj, st2.visited, v :: st2.stack⟩ st'
              (by rw [show (⟨st2.adj, st2.visited, v :: st2.stack⟩ : DfsState).adj = st2.adj
                    from rfl, hadj2]; exact hwf)
              (by intro k w hw
                  simp only at hw ⊢
                  rw [hadj2] at hw ⊢
                  exact hcl k w hw)
              (by intro x hx
                  simp only
                  rw [hadj2]
                  exact hvs x (List.mem_cons_of_mem v hx))
              heq
            simpa using this
          rw [hadj3, hadj2]

theorem sortLoop_adj_eq (fuelD : Nat) :
    ∀ fuelO cur (st st' : DfsState), WFAdj st.adj →
      (∀ k w, w ∈ lookupAdj st.adj k → w ∈ keysOf st.adj) →
      sortLoop fuelD fuelO cur st = some st' → st'.adj = st.adj := by
  intro fuelO
  induction fuelO with
  | zero =>
    intro cur st st' _ _ heq
    simp [sortLoop] at heq
  | succ fO ih =>
    intro cur st st' hwf hcl heq
    cases hnext : nextKeyAfter st.adj cur with
    | none =>
      simp only [sortLoop, hnext] at heq
      cases heq
      rfl
    | some k =>
      obtain ⟨hkmem, _, _⟩ := nextKeyAfter_some hwf hnext
      by_cases hkv : k ∈ st.visited
      · simp only [sortLoop, hnext, if_pos hkv] at heq
        exact ih (some k) st st' hwf hcl heq
      · simp only [sortLoop, hnext, if_neg hkv] at heq
        cases h2 : dfsSeq fuelD [k] st with
        | none => rw [h2] at heq; cases heq
        | some st2 =>
          rw [h2] at heq
          have hadj2 : st2.adj = st.adj :=
            dfsSeq_adj_eq fuelD [k] st st2 hwf hcl
              (by intro x hx; simp at hx; subst hx; exact hkmem) h2
          have hadj3 : st'.adj = st2.adj :=
            ih (some k) st2 st' (by rw [hadj2]; exact hwf)
              (by intro a w hw; rw [hadj2] at hw ⊢; exact hcl a w hw) heq
          rw [hadj3, hadj2]

theorem topologicalSort_second_call (adj : AdjMap) (h : WFAdj adj) :
    (topologicalSort ((topologicalSort adj).1)).1 = (topologicalSort adj).1 := by
  obtain ⟨_, hwf1, hlook1, _, _, hkeys1, _⟩ := topologicalSort_master adj h
  have hclosed : ∀ k w, w ∈ lookupAdj (topologicalSort adj).1 k →
      w ∈ keysOf (topologicalSort adj).1 := by
    intro k w hw
    rw [hlook1 k] at hw
    exact (hkeys1 w).mpr (lookupAdj_subset_vertsU hw)
  obtain ⟨st2, heq2, _, _, _, _, _⟩ := topologicalSortR_spec ((topologicalSort adj).1) hwf1
  have hadj : st2.adj = (topologicalSort adj).1 :=
    sortLoop_adj_eq (dFuel _) (oFuel _) none ⟨(topologicalSort adj).1, [], []⟩ st2
      hwf1 hclosed heq2
  rw [show topologicalSort ((topologicalSort adj).1) = (st2.adj, st2.stack) from by
    rw [topologicalSort, heq2]]
  exact hadj

/-!
### Vector adapter lemmas
-/

theorem vecStackPhase_snd_mem (c : List Nat) :
    ∀ s copied x, x ∈ (vecStackPhase c s copied).2 ↔ x ∈ s ∨ x ∈ copied := by
  intro s
  induction s with
  | nil => intro copied x; simp [vecStackPhase]
  | cons k rest ih =>
    intro copied x
    simp only [vecStackPhase]
    rw [ih (k :: copied) x]
    simp
    tauto

theorem vecStackPhase_fst_count (c : List Nat) :
    ∀ s copied, s.Nodup → ∀ x,
      (vecStackPhase c s copied).1.count x = if x ∈ s then c.count x else 0 := by
  intro s
  induction s with
  | nil => intro copied _ x; simp [vecStackPhase]
  | cons k rest ih =>
    intro copied hnd x
    obtain ⟨hk, hnd'⟩ := List.nodup_cons.mp hnd
    simp only [vecStackPhase, List.count_append]
    rw [ih (k :: copied) hnd' x]
    by_cases hxk : x = k
    · subst hxk
      simp [List.count_replicate, if_neg hk]
    · simp only [List.count_replicate]
      have : (k == x) = false := by
        simp [Ne.symm hxk]
      rw [this]
      simp only [Bool.false_eq_true, if_false, Nat.zero_add]
      by_cases hxr : x ∈ rest
      · simp [hxr, List.mem_cons, hxk]
      · simp [hxr, List.mem_cons, hxk]

theorem vecStackPhase_fst_mem (c : List Nat) :
    ∀ s copied x, x ∈ (vecStackPhase c s copied).1 → x ∈ s := by
  intro s
  induction s with
  | nil => intro copied x hx; simp [vecStackPhase] at hx
  | cons k rest ih =>
    intro copied x hx
    simp only [vecStackPhase, List.mem_append] at hx
    rcases hx with hx | hx
    · rw [List.eq_of_mem_replicate hx]
      exact List.mem_cons_self _ _
    · exact List.mem_cons_of_mem k (ih (k :: copied) x hx)

theorem vecSweep_count (c : List Nat) :
    ∀ l copied x, (vecSweep c l copied).count x =
      if x ∈ copied then 0 else if x ∈ l then c.count x else 0 := by
  intro l
  induction l with
  | nil => intro copied x; simp [vecSweep]
  | cons k rest ih =>
    intro copied x
    simp only [vecSweep]
    by_cases hk : k ∈ copied
    · rw [if_pos hk, ih copied x]
      by_cases hxc : x ∈ copied
      · simp [hxc]
      · by_cases hxk : x = k
        · subst hxk
          exact absurd hk hxc
        · simp [hxc, List.mem_cons, hxk]
    · rw [if_neg hk]
      simp only [List.count_append]
      rw [ih (k :: copied) x]
      by_cases hxk : x = k
      · subst hxk
        simp [List.count_replicate, List.mem_cons, hk]
      · have : (k == x) = false := by simp [Ne.symm hxk]
        simp only [List.count_replicate, this, Bool.false_eq_true, if_false,
          Nat.zero_add, List.mem_cons]
        by_cases hxc : x ∈ copied
        · simp [hxc, hxk]
        · simp [hxc, hxk]

theorem vectorSort_count (adj : AdjMap) (h : WFAdj adj) (c : List Nat) (x : Nat) :
    (vectorSort adj c).count x = c.count x := by
  obtain ⟨_, _, _, hnodup, hstackmem, _, _⟩ := topologicalSort_master adj h
  rw [vectorSort]
  simp only [List.count_append]
  rw [vecStackPhase_fst_count c _ [] hnodup x, vecSweep_count]
  by_cases hxs : x ∈ (topologicalSort adj).2
  · have hx2 : x ∈ (vecStackPhase c (topologicalSort adj).2 []).2 :=
      (vecStackPhase_snd_mem c _ [] x).mpr (Or.inl hxs)
    simp [hxs, hx2]
  · have hx2 : x ∉ (vecStackPhase c (topologicalSort adj).2 []).2 := by
      intro hc
      rcases (vecStackPhase_snd_mem c _ [] x).mp hc with hc | hc
      · exact hxs hc
      · simp at hc
    by_cases hxc : x ∈ c
    · simp [hxs, hx2, hxc]
    · simp [hxs, hx2, hxc, List.count_eq_zero.mpr hxc]

theorem vectorSort_perm (adj : AdjMap) (h : WFAdj adj) (c : List Nat) :
    List.Perm (vectorSort adj c) c :=
  List.perm_iff_count.mpr (fun x => vectorSort_count adj h c x)

theorem vectorSort_length (adj : AdjMap) (h : WFAdj adj) (c : List Nat) :
    (vectorSort adj c).length = c.length :=
  (vectorSort_perm adj h c).length_eq

theorem vectorSort_not_mem (adj : AdjMap) (h : WFAdj adj) (c : List Nat) (k : Nat)
    (hk : k ∉ c) : k ∉ vectorSort adj c :=
  fun hc => hk ((vectorSort_perm adj h c).mem_iff.mp hc)

theorem arraySort_length (adj : AdjMap) (c : List Nat) :
    (arraySort adj c).length = c.length := by
  rw [arraySort]
  simp only [List.length_take, List.length_append, List.length_replicate]
  omega

theorem arraySort_eq_vectorSort (adj : AdjMap) (h : WFAdj adj) (c : List Nat) :
    arraySort adj c = vectorSort adj c := by
  rw [arraySort]
  have hlen := vectorSort_length adj h c
  rw [hlen]
  simp only [Nat.sub_self, List.replicate_zero, List.append_nil]
  rw [← hlen, List.take_length]

/-!
### Associative adapter lemmas
-/

theorem mapAt_isSome_iff (c : List (Nat × Nat)) (k : Nat) :
    (mapAt c k).isSome = true ↔ k ∈ c.map Prod.fst := by
  induction c with
  | nil => simp [mapAt]
  | cons p rest ih =>
    obtain ⟨a, t⟩ := p
    by_cases hk : k = a
    · subst hk
      simp [mapAt]
    · simp [mapAt, hk, ih]

theorem assocStackPhase_isSome_iff (c : List (Nat × Nat)) :
    ∀ s copied, (assocStackPhase c s copied).isSome = true ↔
      ∀ k, k ∈ s → k ∈ c.map Prod.fst := by
  intro s
  induction s with
  | nil =>
    intro copied
    simp [assocStackPhase]
  | cons k rest ih =>
    intro copied
    cases hat : mapAt c k with
    | none =>
      simp only [assocStackPhase, hat]
      constructor
      · intro hc
        simp at hc
      · intro hall
        have : (mapAt c k).isSome = true :=
          (mapAt_isSome_iff c k).mpr (hall k (List.mem_cons_self _ _))
        rw [hat] at this
        simp at this
    | some t =>
      simp only [assocStackPhase, hat]
      cases hrec : assocStackPhase c rest (k :: copied) with
      | none =>
        simp only
        constructor
        · intro hc
          simp at hc
        · intro hall
          have := (ih (k :: copied)).mpr (fun a ha => hall a (List.mem_cons_of_mem k ha))
          rw [hrec] at this
          simp at this
      | some pr =>
        obtain ⟨res, copied'⟩ := pr
        simp only [Option.isSome_some, true_iff]
        intro a ha
        rcases List.mem_cons.mp ha with rfl | ha
        · exact (mapAt_isSome_iff c a).mp (by rw [hat]; rfl)
        · have := (ih (k :: copied)).mp (by rw [hrec]; rfl)
          exact this a ha

theorem assocStackPhase_props (c : List (Nat × Nat)) :
    ∀ s copied res copied', assocStackPhase c s copied = some (res, copied') →
      res.length = s.length ∧
      (∀ x, x ∈ copied' ↔ x ∈ s ∨ x ∈ copied) ∧
      (∀ kv, kv ∈ res → kv.1 ∈ s) := by
  intro s
  induction s with
  | nil =>
    intro copied res copied' heq
    simp only [assocStackPhase, Option.some.injEq, Prod.mk.injEq] at heq
    obtain ⟨rfl, rfl⟩ := heq
    refine ⟨rfl, fun x => by simp, by simp⟩
  | cons k rest ih =>
    intro copied res copied' heq
    cases hat : mapAt c k with
    | none => rw [assocStackPhase, hat] at heq; cases heq
    | some t =>
      rw [assocStackPhase, hat] at heq
      cases hrec : assocStackPhase c rest (k :: copied) with
      | none => rw [hrec] at heq; cases heq
      | some pr =>
        obtain ⟨res0, copied0⟩ := pr
        rw [hrec] at heq
        simp only [Option.some.injEq, Prod.mk.injEq] at heq
        obtain ⟨rfl, rfl⟩ := heq
        obtain ⟨hlen, hmem, hkeys⟩ := ih (k :: copied) res0 copied0 hrec
        refine ⟨by simp [hlen], ?_, ?_⟩
        · intro x
          rw [hmem x]
          simp
          tauto
        · intro kv hkv
          rcases List.mem_cons.mp hkv with rfl | hkv
          · exact List.mem_cons_self _ _
          · exact List.mem_cons_of_mem k (hkeys kv hkv)

theorem assocSweep_eq_filter :
    ∀ (c : List (Nat × Nat)) copied, (c.map Prod.fst).Nodup →
      assocSweep c copied = c.filter (fun kv => decide (kv.1 ∉ copied)) := by
  intro c
  induction c with
  | nil => intro copied _; rfl
  | cons p rest ih =>
    intro copied hnd
    obtain ⟨a, t⟩ := p
    simp only [List.map_cons, List.nodup_cons] at hnd
    obtain ⟨ha, hnd'⟩ := hnd
    by_cases hac : a ∈ copied
    · rw [show assocSweep ((a, t) :: rest) copied = assocSweep rest copied from by
        simp [assocSweep, hac]]
      rw [List.filter_cons]
      simp only [hac, not_true, decide_eq_false_iff_not, Bool.false_eq_true, if_false,
        decide_eq_true_eq, not_not]
      exact ih copied hnd'
    · rw [show assocSweep ((a, t) :: rest) copied =
          (a, t) :: assocSweep rest (a :: copied) from by simp [assocSweep, hac]]
      rw [List.filter_cons]
      rw [if_pos (by simp [hac])]
      congr 1
      rw [ih (a :: copied) hnd']
      apply List.filter_congr
      intro kv hkv
      have hne : kv.1 ≠ a := by
        intro hceq
        apply ha
        rw [← hceq]
        exact List.mem_map_of_mem Prod.fst hkv
      simp [List.mem_cons, hne]

theorem map_fst_filter_key (p : Nat → Bool) :
    ∀ (c : List (Nat × Nat)),
      (c.filter (fun kv => p kv.1)).map Prod.fst = (c.map Prod.fst).filter p := by
  intro c
  induction c with
  | nil => rfl
  | cons kv rest ih =>
    rw [List.filter_cons, List.map_cons, List.filter_cons]
    cases hp : p kv.1
    · simpa using ih
    · simpa using ih

theorem assocSort_none_iff (adj : AdjMap) (h : WFAdj adj) (c : List (Nat × Nat)) :
    assocSort adj c = none ↔ ∃ v, v ∈ vertsU adj ∧ v ∉ c.map Prod.fst := by
  obtain ⟨_, _, _, _, hstackmem, _, _⟩ := topologicalSort_master adj h
  rw [assocSort]
  cases hsp : assocStackPhase c (topologicalSort adj).2 [] with
  | none =>
    simp only [true_iff]
    have hnotall : ¬ ∀ k, k ∈ (topologicalSort adj).2 → k ∈ c.map Prod.fst := by
      intro hall
      have := (assocStackPhase_isSome_iff c (topologicalSort adj).2 []).mpr hall
      rw [hsp] at this
      simp at this
    push_neg at hnotall
    obtain ⟨v, hv1, hv2⟩ := hnotall
    exact ⟨v, (hstackmem v).mp hv1, hv2⟩
  | some pr =>
    constructor
    · intro hc
      simp at hc
    · rintro ⟨v, hv1, hv2⟩
      have : ∀ k, k ∈ (topologicalSort adj).2 → k ∈ c.map Prod.fst :=
        (assocStackPhase_isSome_iff c (topologicalSort adj).2 []).mp (by rw [hsp]; rfl)
      exact absurd (this v ((hstackmem v).mpr hv1)) hv2

theorem assocSort_length (adj : AdjMap) (h : WFAdj adj) (c : List (Nat × Nat))
    (hnd : (c.map Prod.fst).Nodup) (r : List (Nat × Nat))
    (heq : assocSort adj c = some r) : r.length = c.length := by
  obtain ⟨_, _, _, hnodup, hstackmem, _, _⟩ := topologicalSort_master adj h
  rw [assocSort] at heq
  cases hsp : assocStackPhase c (topologicalSort adj).2 [] with
  | none => rw [hsp] at heq; cases heq
  | some pr =>
    obtain ⟨res, copied'⟩ := pr
    rw [hsp] at heq
    simp only [Option.some.injEq] at heq
    subst heq
    obtain ⟨hlen, hcop, _⟩ := assocStackPhase_props c (topologicalSort adj).2 [] res copied' hsp
    have hsub : ∀ k, k ∈ (topologicalSort adj).2 → k ∈ c.map Prod.fst :=
      (assocStackPhase_isSome_iff c (topologicalSort adj).2 []).mp (by rw [hsp]; rfl)
    have hsweep : assocSweep c copied' =
        c.filter (fun kv => decide (kv.1 ∉ (topologicalSort adj).2)) := by
      rw [assocSweep_eq_filter c copied' hnd]
      apply List.filter_congr
      intro kv _
      simp only [decide_eq_decide]
      rw [hcop kv.1]
      simp
    rw [List.length_append, hsweep, hlen]
    have hpart := @List.length_eq_length_filter_add _ c
      (fun kv => decide (kv.1 ∈ (topologicalSort adj).2))
    have hnotf : c.filter (fun kv => !(decide (kv.1 ∈ (topologicalSort adj).2))) =
        c.filter (fun kv => decide (kv.1 ∉ (topologicalSort adj).2)) := by
      apply List.filter_congr
      intro kv _
      simp
    rw [hnotf] at hpart
    have hkeylen : (c.filter (fun kv => decide (kv.1 ∈ (topologicalSort adj).2))).length =
        (topologicalSort adj).2.length := by
      have hmapfst := map_fst_filter_key (fun k => decide (k ∈ (topologicalSort adj).2)) c
      have h1 : (c.filter (fun kv => decide (kv.1 ∈ (topologicalSort adj).2))).length =
          ((c.map Prod.fst).filter (fun k => decide (k ∈ (topologicalSort adj).2))).length := by
        rw [← hmapfst, List.length_map]
      rw [h1]
      apply List.Perm.length_eq
      rw [List.perm_ext_iff_of_nodup (hnd.filter _) hnodup]
      intro a
      rw [List.mem_filter]
      simp only [decide_eq_true_eq]
      constructor
      · rintro ⟨_, ha⟩
        exact ha
      · intro ha
        exact ⟨hsub a ha, ha⟩
    omega

theorem assocSort_split (adj : AdjMap) (h : WFAdj adj) (c : List (Nat × Nat))
    (hnd : (c.map Prod.fst).Nodup) (r : List (Nat × Nat))
    (heq : assocSort adj c = some r) :
    ∃ p, r = p ++ c.filter (fun kv => decide (kv.1 ∉ vertsU adj)) ∧
      ∀ kv, kv ∈ p → kv.1 ∈ vertsU adj := by
  obtain ⟨_, _, _, _, hstackmem, _, _⟩ := topologicalSort_master adj h
  rw [assocSort] at heq
  cases hsp : assocStackPhase c (topologicalSort adj).2 [] with
  | none => rw [hsp] at heq; cases heq
  | some pr =>
    obtain ⟨res, copied'⟩ := pr
    rw [hsp] at heq
    simp only [Option.some.injEq] at heq
    subst heq
    obtain ⟨_, hcop, hkeys⟩ := assocStackPhase_props c (topologicalSort adj).2 [] res copied' hsp
    refine ⟨res, ?_, fun kv hkv => (hstackmem kv.1).mp (hkeys kv hkv)⟩
    congr 1
    rw [assocSweep_eq_filter c copied' hnd]
    apply List.filter_congr
    intro kv _
    simp only [decide_eq_decide]
    rw [hcop kv.1]
    simp only [List.not_mem_nil, or_false]
    rw [hstackmem kv.1]

/-!
### First-occurrence grouping of the sequence-adapter sweep
-/

theorem vecSweep_eq_flatten (c : List Nat) :
    ∀ l copied, vecSweep c l copied =
      ((firstOccsAux l copied).map (fun k => List.replicate (c.count k) k)).flatten := by
  intro l
  induction l with
  | nil => intro copied; rfl
  | cons k rest ih =>
    intro copied
    by_cases hk : k ∈ copied
    · rw [show vecSweep c (k :: rest) copied = vecSweep c rest copied from by
        simp [vecSweep, hk]]
      rw [show firstOccsAux (k :: rest) copied = firstOccsAux rest copied from by
        simp [firstOccsAux, hk]]
      exact ih copied
    · rw [show vecSweep c (k :: rest) copied =
          List.replicate (c.count k) k ++ vecSweep c rest (k :: copied) from by
        simp [vecSweep, hk]]
      rw [show firstOccsAux (k :: rest) copied = k :: firstOccsAux rest (k :: copied) from by
        simp [firstOccsAux, hk]]
      rw [List.map_cons, List.flatten_cons]
      congr 1
      exact ih (k :: copied)

theorem firstOccsAux_filter (S : List Nat) :
    ∀ l s t, (∀ x, x ∈ t ↔ x ∈ S ∨ x ∈ s) →
      (firstOccsAux l s).filter (fun k => decide (k ∉ S)) = firstOccsAux l t := by
  intro l
  induction l with
  | nil => intro s t _; rfl
  | cons k rest ih =>
    intro s t hmem
    by_cases hks : k ∈ s
    · have hkt : k ∈ t := (hmem k).mpr (Or.inr hks)
      rw [show firstOccsAux (k :: rest) s = firstOccsAux rest s from by
        simp [firstOccsAux, hks]]
      rw [show firstOccsAux (k :: rest) t = firstOccsAux rest t from by
        simp [firstOccsAux, hkt]]
      exact ih s t hmem
    · by_cases hkS : k ∈ S
      · have hkt : k ∈ t := (hmem k).mpr (Or.inl hkS)
        rw [show firstOccsAux (k :: rest) s = k :: firstOccsAux rest (k :: s) from by
          simp [firstOccsAux, hks]]
        rw [show firstOccsAux (k :: rest) t = firstOccsAux rest t from by
          simp [firstOccsAux, hkt]]
        rw [List.filter_cons]
        rw [if_neg (by simp [hkS])]
        apply ih (k :: s) t
        intro x
        rw [hmem x]
        simp only [List.mem_cons]
        constructor
        · rintro (hx | hx)
          · exact Or.inl hx
          · exact Or.inr (Or.inr hx)
        · rintro (hx | hx | hx)
          · exact Or.inl hx
          · exact Or.inl (hx ▸ hkS)
          · exact Or.inr hx
      · have hkt : k ∉ t := by
          rw [hmem k]
          rintro (hx | hx)
          · exact hkS hx
          · exact hks hx
        rw [show firstOccsAux (k :: rest) s = k :: firstOccsAux rest (k :: s) from by
          simp [firstOccsAux, hks]]
        rw [show firstOccsAux (k :: rest) t = k :: firstOccsAux rest (k :: t) from by
          simp [firstOccsAux, hkt]]
        rw [List.filter_cons]
        rw [if_pos (by simp [hkS])]
        congr 1
        apply ih (k :: s) (k :: t)
        intro x
        simp only [List.mem_cons]
        rw [hmem x]
        tauto

theorem groupedTail_not_mem_verts (adj : AdjMap) (c : List Nat) :
    ∀ k, k ∈ groupedTail adj c → k ∉ vertsU adj := by
  intro k hk
  rw [groupedTail] at hk
  rw [List.mem_flatten] at hk
  obtain ⟨l, hl, hkl⟩ := hk
  rw [List.mem_map] at hl
  obtain ⟨a, ha, rfl⟩ := hl
  rw [List.mem_filter] at ha
  have := List.eq_of_mem_replicate hkl
  subst this
  simpa using ha.2

theorem vectorSort_split (adj : AdjMap) (h : WFAdj adj) (c : List Nat) :
    ∃ p, vectorSort adj c = p ++ groupedTail adj c ∧
      ∀ k, k ∈ p → k ∈ vertsU adj := by
  obtain ⟨_, _, _, _, hstackmem, _, _⟩ := topologicalSort_master adj h
  refine ⟨(vecStackPhase c (topologicalSort adj).2 []).1, ?_, ?_⟩
  · rw [vectorSort]
    congr 1
    rw [vecSweep_eq_flatten]
    rw [groupedTail]
    congr 2
    symm
    apply firstOccsAux_filter
    intro x
    rw [vecStackPhase_snd_mem]
    simp only [List.not_mem_nil, or_false]
    rw [hstackmem x]
  · intro k hk
    exact (hstackmem k).mp (vecStackPhase_fst_mem c _ [] k hk)

/-!
### Claim theorems
-/

theorem step_single_edge {a b : Nat} (hs : stepRel (lookupAdj [(0, [1])]) a b) :
    a = 0 ∧ b = 1 := by
  simp only [stepRel] at hs
  by_cases ha : a = 0
  · subst ha
    simp [lookupAdj] at hs
    exact ⟨rfl, hs⟩
  · simp [lookupAdj, ha] at hs

theorem reaches_single_edge {a b : Nat} (h : Reaches (lookupAdj [(0, [1])]) a b) :
    a = 0 ∧ b = 1 := by
  induction h with
  | single hs => exact step_single_edge hs
  | tail hab hs ih =>
    obtain ⟨-, hmid⟩ := ih
    obtain ⟨hmid0, -⟩ := step_single_edge hs
    omega

theorem acyclic_single_edge : Acyclic (lookupAdj [(0, [1])]) := by
  intro v hv
  obtain ⟨h0, h1⟩ := reaches_single_edge hv
  omega

/-- Claim C1: for every acyclic precedence graph built by calls to `precede`
(every well-formed adjacency map) and every declared edge (v, w), in the
stack returned by `topological_sort` consumed in pop order (the result list
read head first), v appears at (here: strictly) before w. -/
theorem claim1_topological_validity (adj : AdjMap) (hwf : WFAdj adj)
    (hacy : Acyclic (lookupAdj adj)) (v w : Nat) (hedge : w ∈ lookupAdj adj v) :
    [v, w].Sublist (topologicalSort adj).2 := by
  obtain ⟨-, -, -, -, hstackmem, -, haord⟩ := topologicalSort_master adj hwf
  have hv : v ∈ (topologicalSort adj).2 := by
    rw [hstackmem v]
    obtain ⟨ws, hmem, -⟩ := lookupAdj_mem hedge
    have hvk : v ∈ keysOf adj := List.mem_map.mpr ⟨(v, ws), hmem, rfl⟩
    exact keysOf_subset_vertsU hvk
  exact haord hacy v hv w hedge

/-- Claim C1 witness: the single-edge graph `precede(0, 1)` is acyclic and the
edge is respected in pop order. -/
theorem claim1_witness :
    WFAdj [(0, [1])] ∧ Acyclic (lookupAdj [(0, [1])]) ∧
      1 ∈ lookupAdj [(0, [1])] 0 ∧
      [0, 1].Sublist (topologicalSort [(0, [1])]).2 :=
  ⟨by decide, acyclic_single_edge, by decide,
    claim1_topological_validity [(0, [1])] (by decide) acyclic_single_edge 0 1 (by decide)⟩

/-- Claim C2 counterexample: with the edge Z→A declared (here 1→0) and Z
absent from the wrapped `std::map` container, `sort` does not return
normally: `container::at(1)` throws `std::out_of_range` (modelled as `none`);
the absent key is not silently dropped for the associative adapters. -/
theorem claim2_counterexample :
    1 ∈ vertsU (precede [] 1 0) ∧
    1 ∉ (([(0, 10)] : List (Nat × Nat)).map Prod.fst) ∧
    assocSort (precede [] 1 0) [(0, 10)] = none := by decide

/-- Claim C2 amended: for the sequence adapters (vector, array) a key declared
in the graph but absent from the container contributes nothing to the result
and `sort` returns normally; for the associative adapters (map,
unordered_map) `sort` throws `std::out_of_range` (returns `none`) exactly
when some graph vertex is missing from the container. -/
theorem claim2_amended (adj : AdjMap) (hwf : WFAdj adj) :
    (∀ (c : List Nat) (k : Nat), k ∉ c →
      k ∉ vectorSort adj c ∧ k ∉ arraySort adj c) ∧
    (∀ c : List (Nat × Nat), assocSort adj c = none ↔
      ∃ v, v ∈ vertsU adj ∧ v ∉ c.map Prod.fst) := by
  constructor
  · intro c k hk
    have h1 := vectorSort_not_mem adj hwf c k hk
    refine ⟨h1, ?_⟩
    rw [arraySort_eq_vectorSort adj hwf c]
    exact h1
  · intro c
    exact assocSort_none_iff adj hwf c

/-- Claim C2 amended, witness at concrete inputs. -/
theorem claim2_amended_witness :
    WFAdj (precede [] 1 0) ∧
    25 ∉ ([0, 0] : List Nat) ∧
    (25 ∉ vectorSort (precede [] 1 0) [0, 0] ∧ 25 ∉ arraySort (precede [] 1 0) [0, 0]) ∧
    (assocSort (precede [] 1 0) [(0, 10)] = none ↔
      ∃ v, v ∈ vertsU (precede [] 1 0) ∧
        v ∉ ([(0, 10)] : List (Nat × Nat)).map Prod.fst) :=
  ⟨by decide, by decide,
    (claim2_amended _ (by decide)).1 [0, 0] 25 (by decide),
    (claim2_amended _ (by decide)).2 [(0, 10)]⟩

/-- Claim C3: for every adapter, the sequence returned by `sort` has exactly
as many elements as the wrapped container, counting duplicates (for the
associative adapters, whenever `sort` returns normally; keys of an
associative container are unique). -/
theorem claim3_cardinality (adj : AdjMap) (hwf : WFAdj adj) :
    (∀ c : List Nat, (vectorSort adj c).length = c.length) ∧
    (∀ c : List Nat, (arraySort adj c).length = c.length) ∧
    (∀ (c r : List (Nat × Nat)), (c.map Prod.fst).Nodup →
      assocSort adj c = some r → r.length = c.length) :=
  ⟨fun c => vectorSort_length adj hwf c,
   fun c => arraySort_length adj c,
   fun c r hnd heq => assocSort_length adj hwf c hnd r heq⟩

/-- Claim C3 witness at concrete inputs (Scenario B for the map adapter). -/
theorem claim3_witness :
    WFAdj scenarioA ∧
    (vectorSort scenarioA [7, 7, 0]).length = ([7, 7, 0] : List Nat).length ∧
    (arraySort scenarioA [7, 7, 0]).length = ([7, 7, 0] : List Nat).length ∧
    (([(0, 10), (1, 11), (2, 12), (3, 13), (4, 14), (5, 15)] :
        List (Nat × Nat)).map Prod.fst).Nodup ∧
    assocSort scenarioA [(0, 10), (1, 11), (2, 12), (3, 13), (4, 14), (5, 15)] =
      some [(5, 15), (4, 14), (0, 10), (2, 12), (3, 13), (1, 11)] ∧
    ([(5, 15), (4, 14), (0, 10), (2, 12), (3, 13), (1, 11)] :
        List (Nat × Nat)).length =
      ([(0, 10), (1, 11), (2, 12), (3, 13), (4, 14), (5, 15)] :
        List (Nat × Nat)).length :=
  ⟨by decide,
   (claim3_cardinality scenarioA (by decide)).1 [7, 7, 0],
   (claim3_cardinality scenarioA (by decide)).2.1 [7, 7, 0],
   by decide, by decide,
   (claim3_cardinality scenarioA (by decide)).2.2 _ _ (by decide) (by decide)⟩

/-- Claim C4 counterexample: after calling `topological_sort` on the graph
built by `precede(0, 1)`, the edges mapping is not exactly as before: the
traversal auto-vivified an entry for key 1, so the mapping gained a key. -/
theorem claim4_counterexample :
    1 ∈ keysOf (topologicalSort (precede [] 0 1)).1 ∧
    1 ∉ keysOf (precede [] 0 1) ∧
    (topologicalSort (precede [] 0 1)).1 ≠ precede [] 0 1 := by decide

/-- Claim C4 amended: `topological_sort` preserves every key's successor list
(the edge relation is unchanged, so the call is a pure query of the declared
constraints); the only mutation of the mapping is the auto-vivification of
empty entries, leaving its key set equal to the vertex set.  The wrapped
container is never touched by `sort` (the adapters only read it). -/
theorem claim4_amended (adj : AdjMap) (hwf : WFAdj adj) :
    (∀ k, lookupAdj (topologicalSort adj).1 k = lookupAdj adj k) ∧
    (∀ k, k ∈ keysOf (topologicalSort adj).1 ↔ k ∈ vertsU adj) := by
  obtain ⟨-, -, hlook, -, -, hkeys, -⟩ := topologicalSort_master adj hwf
  exact ⟨hlook, hkeys⟩

/-- Claim C4 amended, witness at a concrete input. -/
theorem claim4_amended_witness :
    WFAdj (precede [] 0 1) ∧
    lookupAdj (topologicalSort (precede [] 0 1)).1 0 = lookupAdj (precede [] 0 1) 0 ∧
    (1 ∈ keysOf (topologicalSort (precede [] 0 1)).1 ↔ 1 ∈ vertsU (precede [] 0 1)) :=
  ⟨by decide, (claim4_amended _ (by decide)).1 0, (claim4_amended _ (by decide)).2 1⟩

/-- Claim C5 counterexample: with edges 2→1 and 2→0 declared, the first call
to `topological_sort` yields pop order [2, 0, 1], but the second call on the
auto-vivified graph yields [2, 1, 0]: the first call's vivification is
observable as a behavior change on the second call. -/
theorem claim5_counterexample :
    (topologicalSort (precede (precede [] 2 1) 2 0)).2 = [2, 0, 1] ∧
    (topologicalSort ((topologicalSort (precede (precede [] 2 1) 2 0)).1)).2 = [2, 1, 0] ∧
    ([2, 0, 1] : List Nat) ≠ [2, 1, 0] := by decide

/-- Claim C5 amended: the graph state reached after one `topological_sort`
call is a fixed point (all vertices already have entries, so no further
vivification happens), hence from the second call onward repeated calls with
no intervening mutation yield identical results; only the first call can
differ from the later ones. -/
theorem claim5_amended (adj : AdjMap) (hwf : WFAdj adj) :
    (topologicalSort ((topologicalSort adj).1)).1 = (topologicalSort adj).1 ∧
    topologicalSort ((topologicalSort ((topologicalSort adj).1)).1) =
      topologicalSort ((topologicalSort adj).1) := by
  have h2 := topologicalSort_second_call adj hwf
  exact ⟨h2, by rw [h2]⟩

/-- Claim C5 amended, witness at the counterexample graph. -/
theorem claim5_amended_witness :
    WFAdj (precede (precede [] 2 1) 2 0) ∧
    (topologicalSort ((topologicalSort (precede (precede [] 2 1) 2 0)).1)).1 =
      (topologicalSort (precede (precede [] 2 1) 2 0)).1 :=
  ⟨by decide, (claim5_amended _ (by decide)).1⟩

/-- Claim C6: `topological_sort` terminates (the fuel proved sufficient, the
fueled run returns a result) for every finite graph built by `precede`,
including graphs with cycles and self-edges, and `precede` itself always
succeeds, preserving the map invariant. -/
theorem claim6_termination (adj : AdjMap) (hwf : WFAdj adj) :
    (topologicalSortR adj).isSome = true ∧ ∀ v w : Nat, WFAdj (precede adj v w) :=
  ⟨(topologicalSort_master adj hwf).1, fun v w => precede_WF hwf v w⟩

/-- Claim C6 witness: a graph with a two-cycle 0↔1 and a self-edge 2→2 still
terminates, and a further self-edge `precede(3, 3)` succeeds. -/
theorem claim6_witness :
    WFAdj (precede (precede (precede [] 0 1) 1 0) 2 2) ∧
    (topologicalSortR (precede (precede (precede [] 0 1) 1 0) 2 2)).isSome = true ∧
    WFAdj (precede (precede (precede (precede [] 0 1) 1 0) 2 2) 3 3) :=
  ⟨by decide, (claim6_termination _ (by decide)).1, (claim6_termination _ (by decide)).2 3 3⟩

/-- Claim C7: Scenario A — keys A..F mapped to 0..5, edges F→C, F→A, E→A,
E→B, C→D, D→B declared in that order; consuming the returned stack top to
bottom yields F, E, A, C, D, B, i.e. [5, 4, 0, 2, 3, 1]. -/
theorem claim7_scenarioA : (topologicalSort scenarioA).2 = [5, 4, 0, 2, 3, 1] := by decide

/-- Claim C8: Scenario C — vector adapter holding A×3, B×2, C×2, D×2, E×2,
F×3 with the six Scenario A edges plus Z→F (Z = 25 absent from the
container); `sort` returns exactly the 14-element sequence
F,F,F,E,E,A,A,A,C,C,D,D,B,B. -/
theorem claim8_scenarioC :
    vectorSort scenarioC containerC = [5, 5, 5, 4, 4, 0, 0, 0, 2, 2, 3, 3, 1, 1] ∧
    (vectorSort scenarioC containerC).length = 14 := by decide

/-- Claim C9 counterexample: with graph 5→6 and vector container [0, 1, 0]
(all elements unconstrained), the result is [0, 0, 1]: the non-vertex
elements do not keep the container's native element order — duplicate
occurrences are grouped at the first occurrence. -/
theorem claim9_counterexample :
    (vectorSort (precede [] 5 6) [0, 1, 0]).filter
        (fun k => decide (k ∉ vertsU (precede [] 5 6))) = [0, 0, 1] ∧
    ([0, 1, 0] : List Nat).filter
        (fun k => decide (k ∉ vertsU (precede [] 5 6))) = [0, 1, 0] ∧
    ([0, 0, 1] : List Nat) ≠ [0, 1, 0] := by decide

/-- Claim C9 amended: in every adapter's result all graph-vertex elements come
first; the unconstrained (non-vertex) elements follow.  For the associative
adapters they appear exactly in native container order; for the sequence
adapters the distinct unconstrained keys appear in order of first occurrence
in the container, each with all of its occurrences grouped together
(`groupedTail`), rather than element-by-element in native order. -/
theorem claim9_amended (adj : AdjMap) (hwf : WFAdj adj) :
    (∀ c : List Nat, ∃ p, vectorSort adj c = p ++ groupedTail adj c ∧
      (∀ k, k ∈ p → k ∈ vertsU adj) ∧
      (∀ k, k ∈ groupedTail adj c → k ∉ vertsU adj)) ∧
    (∀ (c r : List (Nat × Nat)), (c.map Prod.fst).Nodup →
      assocSort adj c = some r →
      ∃ p, r = p ++ c.filter (fun kv => decide (kv.1 ∉ vertsU adj)) ∧
        ∀ kv, kv ∈ p → kv.1 ∈ vertsU adj) := by
  constructor
  · intro c
    obtain ⟨p, h1, h2⟩ := vectorSort_split adj hwf c
    exact ⟨p, h1, h2, groupedTail_not_mem_verts adj c⟩
  · intro c r hnd heq
    exact assocSort_split adj hwf c hnd r heq

/-- Claim C9 amended, witness at the counterexample input. -/
theorem claim9_amended_witness :
    WFAdj (precede [] 5 6) ∧
    (∃ p, vectorSort (precede [] 5 6) [0, 1, 0] =
        p ++ groupedTail (precede [] 5 6) [0, 1, 0] ∧
      (∀ k, k ∈ p → k ∈ vertsU (precede [] 5 6)) ∧
      (∀ k, k ∈ groupedTail (precede [] 5 6) [0, 1, 0] →
        k ∉ vertsU (precede [] 5 6))) :=
  ⟨by decide, (claim9_amended _ (by decide)).1 [0, 1, 0]⟩

/-- Claim C10: for every graph built by `precede` (duplicate edges, cycles
and self-edges included), the stack returned by `topological_sort` contains
each vertex — each key occurring as a side of a declared edge — exactly once
and nothing else. -/
theorem claim10_stack_vertices (adj : AdjMap) (hwf : WFAdj adj) :
    (topologicalSort adj).2.Nodup ∧
    ∀ k, k ∈ (topologicalSort adj).2 ↔ k ∈ vertsU adj := by
  obtain ⟨-, -, -, hnd, hmem, -, -⟩ := topologicalSort_master adj hwf
  exact ⟨hnd, hmem⟩

/-- Claim C10 witness: a graph with a duplicated edge 0→1, the cycle 0↔1 and
a self-edge 2→2. -/
theorem claim10_witness :
    WFAdj (precede (precede (precede (precede [] 0 1) 0 1) 1 0) 2 2) ∧
    (topologicalSort (precede (precede (precede (precede [] 0 1) 0 1) 1 0) 2 2)).2.Nodup ∧
    (1 ∈ (topologicalSort (precede (precede (precede (precede [] 0 1) 0 1) 1 0) 2 2)).2 ↔
      1 ∈ vertsU (precede (precede (precede (precede [] 0 1) 0 1) 1 0) 2 2)) :=
  ⟨by decide, (claim10_stack_vertices _ (by decide)).1,
    (claim10_stack_vertices _ (by decide)).2 1⟩
